import Mathlib

set_option maxRecDepth 4000

/-!
Shallow embedding of the GemKey gesture-capture pipeline:
the point recycling pool (src/services/memoryOptimizer.ts), the
trace accumulation and touch-end classification of the virtual
keyboard (src/components/VirtualKeyboard.tsx), the remote swipe
decoder wrapper (src/services/geminiService.ts) and the App-level
trace/swipe handlers (src/App.tsx).

JS strings are modelled as `List Char`; JS numbers (touch
coordinates) as `ℚ`; object identity of pooled points as an
allocation id threaded through the pool state.  The remote model
call is an oracle parameter (`RemoteOutcome`): it either threw or
returned an optional response text, and the embedded functions
reproduce what the TypeScript does with that outcome.
-/

namespace GemKey

/-- Coerce a Lean string literal to the `List Char` model of JS strings. -/
def jstr (s : String) : List Char := s.data

/-- JS whitespace test, restricted to the ASCII whitespace characters that
occur in this development (space, tab, newline, carriage return, form feed,
vertical tab).  Used to model `String.prototype.trim` / `trimEnd`. -/
def isJsWhitespace (c : Char) : Bool :=
  c == ' ' || c == '\t' || c == '\n' || c == '\r' || c == '\x0c' || c == '\x0b'

/-- Model of JS `s.trimStart()`. -/
def jsTrimStart (l : List Char) : List Char := l.dropWhile isJsWhitespace

/-- Model of JS `s.trimEnd()`. -/
def jsTrimEnd (l : List Char) : List Char := (l.reverse.dropWhile isJsWhitespace).reverse

/-- Model of JS `s.trim()`. -/
def jsTrim (l : List Char) : List Char := jsTrimEnd (jsTrimStart l)

/-- Model of JS `s.endsWith(t)`: `t` is a suffix of `l`. -/
def jsEndsWith (l t : List Char) : Bool := t.reverse.isPrefixOf l.reverse

/-- Model of JS `s.split(' ')[0]`: the characters before the first space. -/
def firstSpaceToken (l : List Char) : List Char := l.takeWhile (fun c => c != ' ')

/-- Model of JS `[...new Set(s.split(''))].join('')`: keep the first
occurrence of every character, in order (Set iteration order is insertion
order). -/
def dedupChars (l : List Char) : List Char :=
  l.foldl (fun acc c => if c ∈ acc then acc else acc ++ [c]) []

/-- Model of JS `s.indexOf(c)` restricted to single characters:
the index of the first occurrence, if any. -/
def firstIndexOfChar : List Char → Char → Option Nat
  | [], _ => Option.none
  | d :: t, c => if d = c then Option.some 0 else (firstIndexOfChar t c).map (· + 1)

/-- Model of JS `s.lastIndexOf(c)` for a single character: the index of
the last occurrence, `none` standing for JS `-1`. -/
def lastIndexOfChar (l : List Char) (c : Char) : Option Nat :=
  (firstIndexOfChar l.reverse c).map (fun j => l.length - 1 - j)

/-! ### Point pool (src/services/memoryOptimizer.ts, class PointPool) -/

/-- A pooled 2-D point.  The TS `Point` has fields `x`, `y` only; the extra
`id` field models JS object identity (each `{ x, y }` allocation gets a
fresh id, and mutating a recycled object keeps its id). -/
structure Point where
  id : Nat
  x : ℚ
  y : ℚ
deriving DecidableEq, Repr

/-- State of the TS `PointPool` class: the `pool` array (in push order)
plus the next fresh allocation id used to model `return { x, y }`. -/
structure PointPool where
  pool : List Point
  nextId : Nat
deriving DecidableEq, Repr

/-- `maxPoolSize = 500` from the source. -/
def maxPoolSize : Nat := 500

/-- `obtain(x, y)`: pop the last pooled point and overwrite its coordinates,
or allocate a fresh point.  `pool.pop()` is `getLast?` / `dropLast` on the
array kept in push order. -/
def PointPool.obtain (st : PointPool) (x y : ℚ) : Point × PointPool :=
  match st.pool.getLast? with
  | Option.some p => ({ p with x := x, y := y }, { st with pool := st.pool.dropLast })
  | Option.none => ({ id := st.nextId, x := x, y := y }, { st with nextId := st.nextId + 1 })

/-- `recycle(points)`: if the pool is below capacity, push
`min(points.length, maxPoolSize - pool.length)` of the given points, in
order; otherwise do nothing. -/
def PointPool.recycle (st : PointPool) (points : List Point) : PointPool :=
  if st.pool.length < maxPoolSize then
    let count := min points.length (maxPoolSize - st.pool.length)
    { st with pool := st.pool ++ points.take count }
  else st

/-- `cleanup()`: `this.pool = []`. -/
def PointPool.cleanup (st : PointPool) : PointPool := { st with pool := [] }

/-- The module-level `new PointPool()` singleton: empty pool. -/
def initialPool : PointPool := { pool := [], nextId := 0 }

/-- One client-visible pool operation, for stating invariants over arbitrary
operation sequences. -/
inductive PoolOp where
  | obtainOp (x y : ℚ)
  | recycleOp (points : List Point)
  | cleanupOp
deriving DecidableEq, Repr

/-- Apply one pool operation to the pool state (discarding the point an
`obtain` returns). -/
def applyPoolOp (st : PointPool) (op : PoolOp) : PointPool :=
  match op with
  | PoolOp.obtainOp x y => (st.obtain x y).2
  | PoolOp.recycleOp points => st.recycle points
  | PoolOp.cleanupOp => st.cleanup

/-- Apply a sequence of pool operations from left to right. -/
def applyPoolOps (st : PointPool) (ops : List PoolOp) : PointPool :=
  ops.foldl applyPoolOp st

/-! ### Touch-end classification (src/components/VirtualKeyboard.tsx, handleTouchEnd)

The embedding covers the trace-resolution branch (`settings.traceTyping`
true and `touchStart.current` set, i.e. a single-finger trace in
progress), with all four callbacks provided — as they are by App.tsx. -/

/-- The externally visible resolution of a touch-end: which callback fires,
if any.  `traceEnd path` means `onTraceEnd(swipePath)` is invoked, which is
what forwards the crossing string towards the decoder. -/
inductive TouchEndAction where
  | swipeRight
  | swipeLeft
  | swipeDown
  | traceEnd (path : List Char)
  | noAction
deriving DecidableEq, Repr

/-- `handleTouchEnd` resolution: `dx`, `dy` are the net displacement from
`touchStart` to the changed touch, `swipePath` the accumulated
key-crossing string. -/
def handleTouchEnd (dx dy : ℚ) (swipePath : List Char) : TouchEndAction :=
  if |dx| > 50 ∨ |dy| > 50 then
    if |dx| > |dy| then
      if dx > 0 then TouchEndAction.swipeRight
      else if dx < 0 then TouchEndAction.swipeLeft
      else TouchEndAction.noAction
    else
      if dy > 0 then TouchEndAction.swipeDown
      else TouchEndAction.noAction
  else if swipePath.length > 2 then TouchEndAction.traceEnd swipePath
  else TouchEndAction.noAction

/-! ### Key-crossing accumulation (src/components/VirtualKeyboard.tsx, handleTouchMove) -/

/-- One touch-move sample's effect on the key-crossing string:
`keyVal` is the `data-key-value` attribute of the element under the
finger (`none` when absent; the empty string is falsy in JS, hence also
skipped).  `if (keyVal && !swipePath.current.endsWith(keyVal)) swipePath.current += keyVal`. -/
def traceMoveStep (swipePath : List Char) (keyVal : Option (List Char)) : List Char :=
  match keyVal with
  | Option.none => swipePath
  | Option.some kv =>
      if kv = [] then swipePath
      else if jsEndsWith swipePath kv then swipePath
      else swipePath ++ kv

/-- The key-crossing string accumulated over a whole trace: touch-start
resets it to `''`, then each touch-move sample is processed in order. -/
def runTrace (samples : List (Option (List Char))) : List Char :=
  samples.foldl traceMoveStep []

/-! ### Remote swipe decoder (src/services/geminiService.ts, decipherSwipe) -/

/-- Oracle for one `genAI.models.generateContent` call: it threw, or it
resolved with `response.text` (`none` models an undefined `text`). -/
inductive RemoteOutcome where
  | threw
  | returned (text : Option (List Char))
deriving DecidableEq, Repr

/-- `decipherSwipe(swipePath, context, language)`.  `genAI` is whether the
AI client was configured.  `context` and `language` only feed the prompt,
so they do not affect the returned string.  The success path returns
`response.text?.trim().split(' ')[0] || ""`; the catch branch returns
`[...new Set(swipePath.split(''))].join('')`. -/
def decipherSwipe (genAI : Bool) (swipePath context language : List Char)
    (outcome : RemoteOutcome) : List Char :=
  if genAI = false ∨ jsTrim swipePath = [] then []
  else if swipePath.length < 3 then swipePath
  else
    match outcome with
    | RemoteOutcome.threw => dedupChars swipePath
    | RemoteOutcome.returned Option.none => []
    | RemoteOutcome.returned (Option.some t) => firstSpaceToken (jsTrim t)

/-! ### App-level handlers (src/App.tsx) -/

/-- The settings fields the trace/swipe handlers consult. -/
structure Settings where
  incognitoMode : Bool
  encryptKeystrokes : Bool
  language : List Char
deriving DecidableEq, Repr

/-- The context argument `handleTraceEnd` passes to `decipherSwipe`:
`(settings.incognitoMode || settings.encryptKeystrokes) ? "" : text`. -/
def traceContext (s : Settings) (text : List Char) : List Char :=
  if s.incognitoMode || s.encryptKeystrokes then [] else text

/-- Observable outcome of one `handleTraceEnd` run: the new text buffer,
the argument triples `(path, context, language)` of the `decipherSwipe`
calls made, and the words passed to `learnFromUser`. -/
structure TraceEndResult where
  newText : List Char
  decoderCalls : List (List Char × List Char × List Char)
  learnCalls : List (List Char)
deriving DecidableEq, Repr

/-- `handleTraceEnd(path)` from App.tsx: guard `if (!path) return`;
call `decipherSwipe`; if the word is truthy, append it with the spacing
rule `needsSpace = prev.length > 0 && !prev.endsWith(' ') && !word.startsWith(' ')`
plus a trailing space, and inform the learner unless a privacy mode is
active. -/
def handleTraceEnd (genAI : Bool) (s : Settings) (text path : List Char)
    (outcome : RemoteOutcome) : TraceEndResult :=
  if path = [] then { newText := text, decoderCalls := [], learnCalls := [] }
  else
    let context := traceContext s text
    let word := decipherSwipe genAI path context s.language outcome
    if word = [] then
      { newText := text, decoderCalls := [(path, context, s.language)], learnCalls := [] }
    else
      let appended := text ++
        (if text ≠ [] ∧ ¬ jsEndsWith text [' '] = true ∧ ¬ word.head? = Option.some ' '
         then [' '] else []) ++ word ++ [' ']
      { newText := appended,
        decoderCalls := [(path, context, s.language)],
        learnCalls := if !s.incognitoMode && !s.encryptKeystrokes then [word] else [] }

/-- `handleSwipeLeft`: trim trailing whitespace, find the last space, and
cut there (or clear the buffer when there is no space), restoring one
trailing space. -/
def handleSwipeLeft (prev : List Char) : List Char :=
  let trimmed := jsTrimEnd prev
  match lastIndexOfChar trimmed ' ' with
  | Option.none => []
  | Option.some i => trimmed.take i ++ [' ']

/-! ## Theorems -/

/-- Every single pool operation preserves the capacity bound. -/
lemma applyPoolOp_length_le (st : PointPool) (op : PoolOp)
    (h : st.pool.length ≤ maxPoolSize) :
    (applyPoolOp st op).pool.length ≤ maxPoolSize := by
  simp only [maxPoolSize] at h ⊢
  cases op with
  | obtainOp x y =>
      show ((st.obtain x y).2).pool.length ≤ 500
      unfold PointPool.obtain
      split
      · simp only [List.length_dropLast]
        omega
      · exact h
  | recycleOp points =>
      show ((st.recycle points)).pool.length ≤ 500
      unfold PointPool.recycle
      simp only [maxPoolSize]
      split
      · simp only [List.length_append, List.length_take]
        omega
      · exact h
  | cleanupOp =>
      show ((st.cleanup)).pool.length ≤ 500
      simp [PointPool.cleanup]

/-- The capacity bound is preserved by any sequence of pool operations. -/
lemma applyPoolOps_length_le (ops : List PoolOp) (st : PointPool)
    (h : st.pool.length ≤ maxPoolSize) :
    (applyPoolOps st ops).pool.length ≤ maxPoolSize := by
  induction ops generalizing st with
  | nil => simpa [applyPoolOps] using h
  | cons op rest ih =>
      simp only [applyPoolOps, List.foldl_cons]
      exact ih (applyPoolOp st op) (applyPoolOp_length_le st op h)

/-- C8: starting from the singleton's empty pool, the retained size never
exceeds the configured capacity (500) after any sequence of obtain, recycle
and cleanup operations; and recycling a list of points whose length exceeds
the remaining capacity leaves the pool at exactly the capacity (the excess
is not retained).  `obtain` and `recycle` are total functions of the state,
so they never fail. -/
theorem C8_pool_capacity (ops : List PoolOp) (st : PointPool) (points : List Point)
    (hst : st.pool.length ≤ maxPoolSize)
    (hover : maxPoolSize - st.pool.length < points.length) :
    (applyPoolOps initialPool ops).pool.length ≤ maxPoolSize ∧
    (st.recycle points).pool.length = maxPoolSize := by
  constructor
  · exact applyPoolOps_length_le ops initialPool (by simp [initialPool])
  · simp only [maxPoolSize] at hst hover ⊢
    unfold PointPool.recycle
    simp only [maxPoolSize]
    split
    · simp only [List.length_append, List.length_take]
      omega
    · omega

/-- Witness for C8 at a concrete overflowing recycle: 501 points offered to
the empty pool. -/
theorem C8_pool_capacity_witness :
    initialPool.pool.length ≤ maxPoolSize ∧
    maxPoolSize - initialPool.pool.length
      < (List.replicate 501 ({ id := 0, x := 0, y := 0 } : Point)).length ∧
    ((applyPoolOps initialPool []).pool.length ≤ maxPoolSize ∧
     (initialPool.recycle (List.replicate 501 { id := 0, x := 0, y := 0 })).pool.length
       = maxPoolSize) :=
  ⟨by decide, by decide,
   C8_pool_capacity [] initialPool (List.replicate 501 { id := 0, x := 0, y := 0 })
     (by decide) (by decide)⟩

/-- C9: `obtain(x, y)` always returns a point carrying exactly the requested
coordinates; and from an otherwise empty pool, obtain → recycle of that one
point → obtain hands back the same underlying object (same allocation id,
and no fresh allocation happens: the fresh-id counter does not move). -/
theorem C9_obtain_reuse (st : PointPool) (x1 y1 x2 y2 : ℚ) (h : st.pool = []) :
    (∀ (st0 : PointPool) (x y : ℚ),
        (st0.obtain x y).1.x = x ∧ (st0.obtain x y).1.y = y) ∧
    ((((st.obtain x1 y1).2.recycle [(st.obtain x1 y1).1]).obtain x2 y2).1.id
        = (st.obtain x1 y1).1.id ∧
     (((st.obtain x1 y1).2.recycle [(st.obtain x1 y1).1]).obtain x2 y2).1.x = x2 ∧
     (((st.obtain x1 y1).2.recycle [(st.obtain x1 y1).1]).obtain x2 y2).1.y = y2 ∧
     (((st.obtain x1 y1).2.recycle [(st.obtain x1 y1).1]).obtain x2 y2).2.nextId
        = (st.obtain x1 y1).2.nextId) := by
  constructor
  · intro st0 x y
    unfold PointPool.obtain
    split <;> exact ⟨rfl, rfl⟩
  · cases st with
    | mk pool nextId =>
        cases h
        exact ⟨rfl, rfl, rfl, rfl⟩

/-- Witness for C9 at the singleton's initial state with coordinates
(1, 2) then (3, 4). -/
theorem C9_obtain_reuse_witness :
    initialPool.pool = [] ∧
    ((((initialPool.obtain 1 2).2.recycle [(initialPool.obtain 1 2).1]).obtain 3 4).1.id
        = (initialPool.obtain 1 2).1.id ∧
     (((initialPool.obtain 1 2).2.recycle [(initialPool.obtain 1 2).1]).obtain 3 4).1.x = 3 ∧
     (((initialPool.obtain 1 2).2.recycle [(initialPool.obtain 1 2).1]).obtain 3 4).1.y = 4 ∧
     (((initialPool.obtain 1 2).2.recycle [(initialPool.obtain 1 2).1]).obtain 3 4).2.nextId
        = (initialPool.obtain 1 2).2.nextId) :=
  ⟨rfl, (C9_obtain_reuse initialPool 1 2 3 4 rfl).2⟩

/-- C1: touch-end classification.  When `max(|dx|,|dy|) > 50` the gesture is
a swipe and the decoder is never reached: the right-swipe fires iff
`|dx| > |dy| ∧ dx > 0`, the left-swipe iff `|dx| > |dy| ∧ dx < 0`, the
down-swipe iff `|dx| ≤ |dy| ∧ dy > 0`, and no trace is ever forwarded.
Otherwise the crossing string is forwarded iff its length exceeds 2, and
with length ≤ 2 nothing happens. -/
theorem C1_touch_end_classification (dx dy : ℚ) (path : List Char) :
    (50 < max |dx| |dy| →
      ((handleTouchEnd dx dy path = TouchEndAction.swipeRight ↔ |dy| < |dx| ∧ 0 < dx) ∧
       (handleTouchEnd dx dy path = TouchEndAction.swipeLeft ↔ |dy| < |dx| ∧ dx < 0) ∧
       (handleTouchEnd dx dy path = TouchEndAction.swipeDown ↔ |dx| ≤ |dy| ∧ 0 < dy) ∧
       (∀ p, handleTouchEnd dx dy path ≠ TouchEndAction.traceEnd p))) ∧
    (max |dx| |dy| ≤ 50 → 2 < path.length →
      handleTouchEnd dx dy path = TouchEndAction.traceEnd path) ∧
    (max |dx| |dy| ≤ 50 → path.length ≤ 2 →
      handleTouchEnd dx dy path = TouchEndAction.noAction) := by
  refine ⟨?_, ?_, ?_⟩
  · intro hmax
    have hor : |dx| > 50 ∨ |dy| > 50 := lt_max_iff.mp hmax
    by_cases hdom : |dy| < |dx|
    · by_cases hdx : 0 < dx
      · have he : handleTouchEnd dx dy path = TouchEndAction.swipeRight := by
          unfold handleTouchEnd
          rw [if_pos hor, if_pos hdom, if_pos hdx]
        rw [he]
        refine ⟨iff_of_true rfl ⟨hdom, hdx⟩, ?_, ?_, ?_⟩
        · exact iff_of_false (by simp) (fun hc => lt_asymm hdx hc.2)
        · exact iff_of_false (by simp) (fun hc => absurd hc.1 (not_le.mpr hdom))
        · intro p
          simp
      · have hdx0 : dx ≠ 0 := by
          intro h0
          rw [h0] at hdom
          simp only [abs_zero] at hdom
          exact absurd hdom (not_lt.mpr (abs_nonneg dy))
        have hneg : dx < 0 := lt_of_le_of_ne (not_lt.mp hdx) hdx0
        have he : handleTouchEnd dx dy path = TouchEndAction.swipeLeft := by
          unfold handleTouchEnd
          rw [if_pos hor, if_pos hdom, if_neg hdx, if_pos hneg]
        rw [he]
        refine ⟨?_, iff_of_true rfl ⟨hdom, hneg⟩, ?_, ?_⟩
        · exact iff_of_false (by simp) (fun hc => hdx hc.2)
        · exact iff_of_false (by simp) (fun hc => absurd hc.1 (not_le.mpr hdom))
        · intro p
          simp
    · by_cases hdy : 0 < dy
      · have he : handleTouchEnd dx dy path = TouchEndAction.swipeDown := by
          unfold handleTouchEnd
          rw [if_pos hor, if_neg hdom, if_pos hdy]
        rw [he]
        refine ⟨?_, ?_, iff_of_true rfl ⟨not_lt.mp hdom, hdy⟩, ?_⟩
        · exact iff_of_false (by simp) (fun hc => hdom hc.1)
        · exact iff_of_false (by simp) (fun hc => hdom hc.1)
        · intro p
          simp
      · have he : handleTouchEnd dx dy path = TouchEndAction.noAction := by
          unfold handleTouchEnd
          rw [if_pos hor, if_neg hdom, if_neg hdy]
        rw [he]
        refine ⟨?_, ?_, ?_, ?_⟩
        · exact iff_of_false (by simp) (fun hc => hdom hc.1)
        · exact iff_of_false (by simp) (fun hc => hdom hc.1)
        · exact iff_of_false (by simp) (fun hc => hdy hc.2)
        · intro p
          simp
  · intro hmax hlen
    have hnor : ¬(|dx| > 50 ∨ |dy| > 50) := by
      push_neg
      exact ⟨le_trans (le_max_left _ _) hmax, le_trans (le_max_right _ _) hmax⟩
    unfold handleTouchEnd
    rw [if_neg hnor, if_pos hlen]
  · intro hmax hlen
    have hnor : ¬(|dx| > 50 ∨ |dy| > 50) := by
      push_neg
      exact ⟨le_trans (le_max_left _ _) hmax, le_trans (le_max_right _ _) hmax⟩
    unfold handleTouchEnd
    rw [if_neg hnor, if_neg (not_lt.mpr hlen)]

/-- Witness for C1: a 60px-right swipe fires the right-swipe even with a
long crossing string, and a 3-key trace below the threshold is forwarded. -/
theorem C1_touch_end_classification_witness :
    handleTouchEnd 60 10 (jstr "abcd") = TouchEndAction.swipeRight ∧
    handleTouchEnd 3 2 (jstr "abc") = TouchEndAction.traceEnd (jstr "abc") ∧
    handleTouchEnd 3 2 (jstr "ab") = TouchEndAction.noAction :=
  ⟨((C1_touch_end_classification 60 10 (jstr "abcd")).1 (by decide)).1.mpr
      ⟨by decide, by decide⟩,
   (C1_touch_end_classification 3 2 (jstr "abc")).2.1 (by decide) (by decide),
   (C1_touch_end_classification 3 2 (jstr "ab")).2.2 (by decide) (by decide)⟩

/-- `s.endsWith(c)` for a single character holds exactly when the last
character of `s` is `c`. -/
lemma jsEndsWith_singleton (l : List Char) (c : Char) :
    jsEndsWith l [c] = true ↔ l.getLast? = Option.some c := by
  unfold jsEndsWith
  rw [← List.head?_reverse]
  cases l.reverse with
  | nil => simp [List.isPrefixOf]
  | cons d t =>
      simp only [List.reverse_singleton, List.isPrefixOf, Bool.and_true, beq_iff_eq,
        List.head?_cons, Option.some.injEq]
      exact eq_comm

/-- The touch-move accumulation step, for single-character key values:
append exactly when the key differs from the last appended character. -/
lemma traceMoveStep_singleton (path : List Char) (c : Char) :
    traceMoveStep path (Option.some [c]) =
      if path.getLast? = Option.some c then path else path ++ [c] := by
  show (if [c] = ([] : List Char) then path
        else if jsEndsWith path [c] = true then path else path ++ [c]) =
      if path.getLast? = Option.some c then path else path ++ [c]
  rw [if_neg (by simp : ¬([c] = ([] : List Char)))]
  by_cases h : path.getLast? = Option.some c
  · rw [if_pos ((jsEndsWith_singleton path c).mpr h), if_pos h]
  · rw [if_neg (fun hc => h ((jsEndsWith_singleton path c).mp hc)), if_neg h]

/-- Counterexample to C2 as stated: the key sequence h,e,l,l,o,l,l,o yields
the crossing string "helolo", not "heloolo". -/
theorem C2_counterexample :
    runTrace ((jstr "hellollo").map (fun c => Option.some [c])) = jstr "helolo" ∧
    jstr "helolo" ≠ jstr "heloolo" := by
  decide

/-- C2 (amended): a single-character key value is appended iff it differs
from the last appended character, so exactly consecutive duplicates are
suppressed; h,h,e,e,l,l,l,o yields "helo" and h,e,l,l,o,l,l,o yields
"helolo" (no deduplication beyond consecutive runs). -/
theorem C2_consecutive_dedup :
    (∀ (path : List Char) (c : Char),
        traceMoveStep path (Option.some [c]) =
          if path.getLast? = Option.some c then path else path ++ [c]) ∧
    runTrace ((jstr "hheelllo").map (fun c => Option.some [c])) = jstr "helo" ∧
    runTrace ((jstr "hellollo").map (fun c => Option.some [c])) = jstr "helolo" :=
  ⟨traceMoveStep_singleton, by decide, by decide⟩

/-- When the model call throws and the call was actually made (client
configured, non-blank path of length ≥ 3), the catch branch returns the
character-dedup of the crossing string. -/
lemma decipherSwipe_threw_eq (path context language : List Char)
    (htrim : jsTrim path ≠ []) (hlen : ¬ path.length < 3) :
    decipherSwipe true path context language RemoteOutcome.threw = dedupChars path := by
  unfold decipherSwipe
  rw [if_neg (by simp [htrim]), if_neg hlen]

/-- Folding the dedup step over a list that is disjoint from the
accumulator and has no duplicates just appends the list. -/
lemma dedup_foldl_of_nodup (l : List Char) :
    ∀ acc : List Char, (∀ c ∈ l, c ∉ acc) → l.Nodup →
      l.foldl (fun acc c => if c ∈ acc then acc else acc ++ [c]) acc = acc ++ l := by
  induction l with
  | nil => intro acc _ _; simp
  | cons a t ih =>
      intro acc hdisj hnodup
      simp only [List.foldl_cons]
      rw [if_neg (hdisj a (by simp))]
      rw [ih (acc ++ [a]) ?_ (List.Nodup.of_cons hnodup)]
      · simp
      · intro c hc
        simp only [List.mem_append, List.mem_singleton]
        rintro (hacc | rfl)
        · exact hdisj c (by simp [hc]) hacc
        · exact (List.nodup_cons.mp hnodup).1 hc

/-- A string with no repeated characters is its own character-dedup. -/
lemma dedupChars_of_nodup (l : List Char) (h : l.Nodup) : dedupChars l = l := by
  unfold dedupChars
  simpa using dedup_foldl_of_nodup l [] (by simp) h

/-- C3: when the remote call throws on an actually-made decode request, the
operation returns the deterministic local fallback: the crossing string with
duplicate characters removed (first occurrences kept), e.g. "hello" →
"helo".  No exception escapes: the embedded function is total and the catch
branch covers the whole call. -/
theorem C3_decoder_fallback (path context language : List Char)
    (htrim : jsTrim path ≠ []) (hlen : ¬ path.length < 3) :
    decipherSwipe true path context language RemoteOutcome.threw = dedupChars path :=
  decipherSwipe_threw_eq path context language htrim hlen

/-- Witness for C3: the trace string "hello" falls back to "helo". -/
theorem C3_decoder_fallback_witness :
    decipherSwipe true (jstr "hello") [] [] RemoteOutcome.threw = jstr "helo" := by
  have h := C3_decoder_fallback (jstr "hello") [] [] (by decide) (by decide)
  rw [h]
  decide

/-- Counterexample to C4 as stated: on failure the decode of "hello" returns
"helo", not the input string itself. -/
theorem C4_counterexample :
    decipherSwipe true (jstr "hello") [] [] RemoteOutcome.threw = jstr "helo" ∧
    decipherSwipe true (jstr "hello") [] [] RemoteOutcome.threw ≠ jstr "hello" := by
  decide

/-- C4 (amended): when the remote call fails, the decode operation returns
the input string with its duplicate characters removed (first occurrences
kept) — which equals the input itself exactly in the duplicate-free case. -/
theorem C4_failure_returns_dedup (path context language : List Char)
    (htrim : jsTrim path ≠ []) (hlen : ¬ path.length < 3) :
    decipherSwipe true path context language RemoteOutcome.threw = dedupChars path ∧
    (path.Nodup →
      decipherSwipe true path context language RemoteOutcome.threw = path) := by
  refine ⟨decipherSwipe_threw_eq path context language htrim hlen, fun hnd => ?_⟩
  rw [decipherSwipe_threw_eq path context language htrim hlen]
  exact dedupChars_of_nodup path hnd

/-- Witness for C4 at the duplicate-free trace "abc". -/
theorem C4_failure_returns_dedup_witness :
    decipherSwipe true (jstr "abc") [] [] RemoteOutcome.threw = jstr "abc" :=
  (C4_failure_returns_dedup (jstr "abc") [] [] (by decide) (by decide)).2 (by decide)

/-- The success path of `decipherSwipe`: first space-delimited token of the
trimmed response text. -/
lemma decipherSwipe_returned_eq (path context language t : List Char)
    (htrim : jsTrim path ≠ []) (hlen : ¬ path.length < 3) :
    decipherSwipe true path context language (RemoteOutcome.returned (Option.some t))
      = firstSpaceToken (jsTrim t) := by
  unfold decipherSwipe
  rw [if_neg (by simp [htrim]), if_neg hlen]

/-- The first space-delimited token never starts with a space. -/
lemma firstSpaceToken_head_ne_space (l : List Char) :
    ¬ (firstSpaceToken l).head? = Option.some ' ' := by
  unfold firstSpaceToken
  cases l with
  | nil => simp
  | cons a t =>
      by_cases h : a = ' '
      · subst h
        simp [List.takeWhile_cons]
      · simp [List.takeWhile_cons, h]

/-- Shape of `handleTraceEnd`'s buffer update when the decoded word is
non-empty. -/
lemma handleTraceEnd_newText_of_word (genAI : Bool) (s : Settings)
    (text path : List Char) (outcome : RemoteOutcome) (hpath : path ≠ [])
    (hword : decipherSwipe genAI path (traceContext s text) s.language outcome ≠ []) :
    (handleTraceEnd genAI s text path outcome).newText =
      text ++
        (if text ≠ [] ∧ ¬ jsEndsWith text [' '] = true ∧
            ¬ (decipherSwipe genAI path (traceContext s text) s.language outcome).head?
              = Option.some ' '
         then [' '] else []) ++
        decipherSwipe genAI path (traceContext s text) s.language outcome ++ [' '] := by
  simp only [handleTraceEnd]
  rw [if_neg hpath, if_neg hword]

/-- Counterexample to C5 as stated: a buffer ending in a newline (which is
whitespace but not the space character) still receives a separating space,
and a response whose tokens are tab-separated is not split: the whole
trimmed response is taken. -/
theorem C5_counterexample :
    ((handleTraceEnd true ⟨false, false, jstr "EN"⟩ (jstr "a\n") (jstr "hel")
        (RemoteOutcome.returned (Option.some (jstr "hello")))).newText
          = jstr "a\n hello "
      ∧ jstr "a\n hello " ≠ jstr "a\nhello ")
    ∧ decipherSwipe true (jstr "hel") [] []
        (RemoteOutcome.returned (Option.some (jstr "x\ty"))) = jstr "x\ty" := by
  decide

/-- C5 (amended): when the decoder resolves with response text whose first
space-delimited token (after trimming) is non-empty, exactly that token is
appended; a separating space is inserted iff the buffer is non-empty and
does not already end in the space character, and a trailing space always
follows. -/
theorem C5_word_append (s : Settings) (text path resp : List Char)
    (htrim : jsTrim path ≠ []) (hlen : ¬ path.length < 3)
    (hword : firstSpaceToken (jsTrim resp) ≠ []) :
    (handleTraceEnd true s text path
        (RemoteOutcome.returned (Option.some resp))).newText
      = text ++
          (if text ≠ [] ∧ ¬ text.getLast? = Option.some ' ' then [' '] else []) ++
          firstSpaceToken (jsTrim resp) ++ [' '] := by
  have hpath : path ≠ [] := by
    intro h0
    rw [h0] at hlen
    simp at hlen
  have hds := decipherSwipe_returned_eq path (traceContext s text) s.language resp htrim hlen
  rw [handleTraceEnd_newText_of_word true s text path _ hpath (by rw [hds]; exact hword)]
  rw [hds]
  have hiff : (text ≠ [] ∧ ¬ jsEndsWith text [' '] = true ∧
      ¬ (firstSpaceToken (jsTrim resp)).head? = Option.some ' ')
      ↔ (text ≠ [] ∧ ¬ text.getLast? = Option.some ' ') := by
    constructor
    · rintro ⟨h1, h2, -⟩
      exact ⟨h1, fun hg => h2 ((jsEndsWith_singleton text ' ').mpr hg)⟩
    · rintro ⟨h1, h2⟩
      exact ⟨h1, fun he => h2 ((jsEndsWith_singleton text ' ').mp he),
        firstSpaceToken_head_ne_space (jsTrim resp)⟩
  rw [if_congr hiff rfl rfl]

/-- Witness for C5: decoder result "hello" on an empty buffer appends
exactly "hello ". -/
theorem C5_word_append_witness :
    (handleTraceEnd true ⟨false, false, jstr "EN"⟩ [] (jstr "hel")
        (RemoteOutcome.returned (Option.some (jstr "hello")))).newText
      = jstr "hello " := by
  have h := C5_word_append ⟨false, false, jstr "EN"⟩ [] (jstr "hel") (jstr "hello")
    (by decide) (by decide) (by decide)
  rw [h]
  decide

/-- C6: with incognito or keystroke-encryption active, the decoder is always
called with the empty context — in particular two runs differing only in the
buffer make identical decoder calls — and the frequency learner is never
informed. -/
theorem C6_privacy_context (genAI : Bool) (s : Settings) (t t2 path : List Char)
    (o : RemoteOutcome)
    (hpriv : s.incognitoMode = true ∨ s.encryptKeystrokes = true) :
    (handleTraceEnd genAI s t path o).decoderCalls
        = (if path = [] then [] else [(path, ([] : List Char), s.language)]) ∧
    (handleTraceEnd genAI s t path o).decoderCalls
        = (handleTraceEnd genAI s t2 path o).decoderCalls ∧
    (handleTraceEnd genAI s t path o).learnCalls = [] := by
  have hctx : ∀ u : List Char, traceContext s u = [] := by
    intro u
    unfold traceContext
    rcases hpriv with h | h <;> simp [h]
  have hlearn : (!s.incognitoMode && !s.encryptKeystrokes) = false := by
    rcases hpriv with h | h <;> simp [h]
  have main : ∀ u : List Char,
      (handleTraceEnd genAI s u path o).decoderCalls
          = (if path = [] then [] else [(path, ([] : List Char), s.language)]) ∧
      (handleTraceEnd genAI s u path o).learnCalls = [] := by
    intro u
    by_cases hp : path = []
    · simp [handleTraceEnd, hp]
    · by_cases hw : decipherSwipe genAI path [] s.language o = []
      · simp [handleTraceEnd, hp, hctx, hw]
      · simp [handleTraceEnd, hp, hctx, hw, hlearn]
  exact ⟨(main t).1, by rw [(main t).1, (main t2).1], (main t).2⟩

/-- Witness for C6 at incognito mode, path "hel", two different buffers. -/
theorem C6_privacy_context_witness :
    (handleTraceEnd true ⟨true, false, jstr "EN"⟩ (jstr "abc") (jstr "hel")
        (RemoteOutcome.returned (Option.some (jstr "hi")))).decoderCalls
      = [(jstr "hel", ([] : List Char), jstr "EN")] ∧
    (handleTraceEnd true ⟨true, false, jstr "EN"⟩ (jstr "abc") (jstr "hel")
        (RemoteOutcome.returned (Option.some (jstr "hi")))).learnCalls = [] := by
  have h := C6_privacy_context true ⟨true, false, jstr "EN"⟩ (jstr "abc") (jstr "xyz")
    (jstr "hel") (RemoteOutcome.returned (Option.some (jstr "hi"))) (Or.inl rfl)
  refine ⟨?_, h.2.2⟩
  rw [h.1]
  decide

/-- C10: whenever the decode operation resolves to the empty string, the
trace-end handler leaves the buffer unchanged and never informs the
frequency learner. -/
theorem C10_empty_word_noop (genAI : Bool) (s : Settings) (t path : List Char)
    (o : RemoteOutcome)
    (h : decipherSwipe genAI path (traceContext s t) s.language o = []) :
    (handleTraceEnd genAI s t path o).newText = t ∧
    (handleTraceEnd genAI s t path o).learnCalls = [] := by
  by_cases hp : path = []
  · simp [handleTraceEnd, hp]
  · constructor <;> simp [handleTraceEnd, hp, h]

/-- Witness for C10: with the AI client unconfigured the decode resolves to
the empty string and the buffer "hi" is untouched. -/
theorem C10_empty_word_noop_witness :
    decipherSwipe false (jstr "abc")
        (traceContext ⟨false, false, jstr "EN"⟩ (jstr "hi")) (jstr "EN")
        RemoteOutcome.threw = [] ∧
    (handleTraceEnd false ⟨false, false, jstr "EN"⟩ (jstr "hi") (jstr "abc")
        RemoteOutcome.threw).newText = jstr "hi" ∧
    (handleTraceEnd false ⟨false, false, jstr "EN"⟩ (jstr "hi") (jstr "abc")
        RemoteOutcome.threw).learnCalls = [] :=
  ⟨by decide,
   (C10_empty_word_noop false ⟨false, false, jstr "EN"⟩ (jstr "hi") (jstr "abc")
      RemoteOutcome.threw (by decide)).1,
   (C10_empty_word_noop false ⟨false, false, jstr "EN"⟩ (jstr "hi") (jstr "abc")
      RemoteOutcome.threw (by decide)).2⟩

/-- `trimEnd` drops a final space. -/
lemma jsTrimEnd_append_space (x : List Char) : jsTrimEnd (x ++ [' ']) = jsTrimEnd x := by
  unfold jsTrimEnd
  rw [List.reverse_append]
  have hsp : isJsWhitespace ' ' = true := rfl
  simp only [List.reverse_singleton, List.singleton_append, List.dropWhile_cons, hsp,
    if_true]

/-- `trimEnd` is the identity on a string whose last character is not
whitespace. -/
lemma jsTrimEnd_of_last_nonws (x : List Char) (d : Char)
    (hd : isJsWhitespace d = false) :
    jsTrimEnd (x ++ [d]) = x ++ [d] := by
  unfold jsTrimEnd
  rw [List.reverse_append]
  simp [List.dropWhile_cons, hd]

/-- Index of the first occurrence of `c` past a prefix that avoids it. -/
lemma firstIndexOfChar_append (xs ys : List Char) (c : Char)
    (h : ∀ d ∈ xs, d ≠ c) :
    firstIndexOfChar (xs ++ c :: ys) c = Option.some xs.length := by
  induction xs with
  | nil => simp [firstIndexOfChar]
  | cons d t ih =>
      simp only [List.cons_append, firstIndexOfChar, List.append_eq]
      rw [if_neg (h d (by simp))]
      rw [ih (fun e he => h e (by simp [he]))]
      simp

/-- C7: firing the left-swipe on a buffer of the form
`a ++ " " ++ word ++ " "` (non-empty `word` containing no whitespace)
removes exactly that last space-delimited word and keeps a trailing
space. -/
theorem C7_swipe_left_removes_word (a b : List Char) (hb : b ≠ [])
    (hws : ∀ c ∈ b, isJsWhitespace c = false) :
    handleSwipeLeft (a ++ ' ' :: (b ++ [' '])) = a ++ [' '] := by
  have h1 : a ++ ' ' :: (b ++ [' ']) = (a ++ ' ' :: b) ++ [' '] := by simp
  have hb2 : a ++ ' ' :: b = (a ++ ' ' :: b.dropLast) ++ [b.getLast hb] := by
    conv_lhs => rw [← List.dropLast_append_getLast hb]
    simp
  have htrim : jsTrimEnd (a ++ ' ' :: (b ++ [' '])) = a ++ ' ' :: b := by
    rw [h1, jsTrimEnd_append_space, hb2,
      jsTrimEnd_of_last_nonws _ _ (hws _ (List.getLast_mem hb)), ← hb2]
  unfold handleSwipeLeft
  rw [htrim]
  have hnomem : ∀ d ∈ b.reverse, d ≠ ' ' := by
    intro d hd hdc
    have hdb : d ∈ b := by simpa using hd
    have := hws d hdb
    rw [hdc] at this
    simp [isJsWhitespace] at this
  have hidx : lastIndexOfChar (a ++ ' ' :: b) ' ' = Option.some a.length := by
    unfold lastIndexOfChar
    have hrev : (a ++ ' ' :: b).reverse = b.reverse ++ ' ' :: a.reverse := by
      simp
    rw [hrev, firstIndexOfChar_append b.reverse a.reverse ' ' hnomem]
    simp only [Option.map, List.length_append, List.length_cons, List.length_reverse,
      Option.some.injEq]
    omega
  show (match lastIndexOfChar (a ++ ' ' :: b) ' ' with
        | Option.none => ([] : List Char)
        | Option.some i => List.take i (a ++ ' ' :: b) ++ [' ']) = a ++ [' ']
  rw [hidx]
  show List.take a.length (a ++ ' ' :: b) ++ [' '] = a ++ [' ']
  have htake : (a ++ ' ' :: b).take a.length = a := List.take_left a (' ' :: b)
  rw [htake]

/-- Witness for C7: the buffer "the quick fox " becomes "the quick ". -/
theorem C7_swipe_left_removes_word_witness :
    handleSwipeLeft (jstr "the quick fox ") = jstr "the quick " := by
  have h := C7_swipe_left_removes_word (jstr "the quick") (jstr "fox")
    (by decide) (by decide)
  have e1 : jstr "the quick fox " = jstr "the quick" ++ ' ' :: (jstr "fox" ++ [' ']) := by
    decide
  rw [e1, h]
  decide

end GemKey
